import Mathlib

/-!
# Verification of `rdu`'s `calc_space_usage` (src/main.rs)

This development shallowly embeds the traversal engine of `rdu`, a disk-usage
calculator.  The Rust function `calc_space_usage` drives an event loop over two
pools of asynchronous tasks:

* a metadata pool (`meta_js : JoinSet<(PathBuf, io::Result<Metadata>)>`) of
  pending stat calls, and
* an expansion pool (`dir_js : JoinSet<(PathBuf, io::Result<()>)>`) of pending
  directory listings.

Per iteration the loop first runs
`while let Some(v) = std::future::poll_fn(|ctx| dir_js.poll_join_next(ctx)).await`,
which is exactly `while let Some(v) = dir_js.join_next().await`: the constructed
future returns `Poll::Pending` whenever the set is nonempty with no completed
task, so the `.await` suspends until one completes, and the `while` exits only
when the set is empty.  Hence every iteration fully drains the expansion pool
(awaiting in-flight listings) before touching the metadata pool.  After that
drain the expansion pool is empty, so the `dir_js.join_next().await` under
`if meta_js.lock().await.is_empty()` always yields `None` (the `break`), and
otherwise one completed metadata task is processed.

The nondeterminism left to the tokio scheduler is which completed task
`join_next` hands back; we model it by an explicit stream of indices `sched`.
A completed expansion task has already enqueued all of its children into the
metadata pool (the task body spawns them before returning), which the model
performs atomically when the task is reaped.  I/O is a pure oracle `FS`;
`u64` arithmetic is `Nat` reduced modulo `2 ^ 64` at each addition.
-/

namespace Rdu

/-- The file type classification `std::fs::FileType` provides, collapsed to the
four cases `calc_space_usage` distinguishes (`is_file`, `is_dir`,
`is_symlink`, anything else). -/
inductive FileType where
  | file
  | dir
  | symlink
  | otherType
  deriving DecidableEq, Repr

/-- The fields of `std::fs::Metadata` that `calc_space_usage` consults:
`file_type()`, `len()`, `dev()`, `ino()`, `nlink()`. -/
structure Metadata where
  ftype : FileType
  len : Nat
  dev : Nat
  ino : Nat
  nlink : Nat
  deriving DecidableEq, Repr

/-- `io::ErrorKind`, collapsed to the three classes `handle_err`
distinguishes: `NotFound`, `OutOfMemory`, and everything else. -/
inductive ErrorKind where
  | notFound
  | outOfMemory
  | otherKind
  deriving DecidableEq, Repr

/-- `io::Error`: an error kind plus an abstract payload identifying the
underlying OS error.  As in the Rust `io::Error` values produced by
`tokio::fs` stat/read_dir calls, no offending path is stored inside. -/
structure IoError where
  kind : ErrorKind
  osCode : Nat
  deriving DecidableEq, Repr

/-- Paths, as lists of child indices relative to the traversal root.
`read_dir p` yields children of the form `p ++ [i]`. -/
abbrev Path := List Nat

/-- The `Opts` fields that `calc_space_usage` reads (`dir` and
`human_readable` are consumed by the excluded CLI wrapper). -/
structure Opts where
  ignore_hardlinks : Bool
  follow_symlinks : Bool
  deriving DecidableEq, Repr

/-- The filesystem oracle: `tokio::fs::symlink_metadata` (non-following
stat), `tokio::fs::metadata` (link-following stat), and `tokio::fs::read_dir`
(children of a directory). -/
structure FS where
  symlink_metadata : Path → Except IoError Metadata
  metadata : Path → Except IoError Metadata
  read_dir : Path → Except IoError (List Path)

/-- A pending metadata-pool task.  `follow := false` is a
`meta_with_path` task (spawned at lines 55, 104 and 137 of main.rs, calling
`fs::symlink_metadata`); `follow := true` is the link-following task spawned
by the `opts.follow_symlinks && file_type.is_symlink()` branch (line 116,
calling `fs::metadata`). -/
structure MetaTask where
  follow : Bool
  path : Path
  deriving DecidableEq, Repr

/-- The mutable state of `calc_space_usage`'s driving loop: the two task
pools, the `HashSet<(u64, u64)>` of seen (device, inode) pairs, and the
running `u64` total. -/
structure State where
  metaPool : List MetaTask
  dirPool : List Path
  seen : List (Nat × Nat)
  size : Nat
  deriving DecidableEq, Repr

/-- `2 ^ 64`, the modulus of `u64` arithmetic. -/
def U64 : Nat := 2 ^ 64

/-- A scheduler choice: `join_next` returns some completed task of the pool;
the stream entry `n` selects the `(n % length)`-th one.  `none` iff the pool
is empty. -/
def pick : List α → Nat → Option (α × List α)
  | [], _ => none
  | a :: as, n =>
    some ((a :: as).getD (n % (as.length + 1)) a,
          (a :: as).eraseIdx (n % (as.length + 1)))

/-- `HashSet::insert` (line 90): returns whether the element was newly
inserted, together with the updated set. -/
def insertSeen (s : List (Nat × Nat)) (x : Nat × Nat) : Bool × List (Nat × Nat) :=
  if x ∈ s then (false, s) else (true, x :: s)

/-- `meta_with_path` (lines 144-147): a non-following stat tagged with its
path. -/
def meta_with_path (fs : FS) (path : Path) : Path × Except IoError Metadata :=
  (path, fs.symlink_metadata path)

/-- `handle_err` (lines 133-142): `NotFound` is swallowed; `OutOfMemory`
spawns a fresh `meta_with_path` task for the path into the metadata pool
(regardless of which operation failed); anything else is returned as the
fatal error (the path argument is dropped). -/
def handle_err (path : Path) (metaPool : List MetaTask) (err : IoError) :
    Except IoError (List MetaTask) :=
  match err.kind with
  | .notFound => .ok metaPool
  | .outOfMemory => .ok (metaPool ++ [⟨false, path⟩])
  | .otherKind => .error err

/-- The body of an expansion task (lines 98-114): `read_dir` the path, and on
success batch-spawn one `meta_with_path` task per child into the metadata
pool.  On failure nothing is spawned (the `?` exits before the spawn loop). -/
def expandTask (fs : FS) (path : Path) (metaPool : List MetaTask) :
    List MetaTask × Except IoError Unit :=
  match fs.read_dir path with
  | .ok children => (metaPool ++ children.map (fun c => ⟨false, c⟩), .ok ())
  | .error e => (metaPool, .error e)

/-- One reap of the expansion pool inside the drain loop (lines 59-67):
remove the scheduler-chosen task, account for the children it spawned, and
route a failure through `handle_err`. -/
def drainDirAux (fs : FS) : Nat → State → List Nat → Except IoError (State × List Nat)
  | 0, st, sched => .ok (st, sched)
  | fuel + 1, st, sched =>
    match pick st.dirPool (sched.headD 0) with
    | none => .ok (st, sched)
    | some (p, rest) =>
      match expandTask fs p st.metaPool with
      | (mp, .ok _) =>
        drainDirAux fs fuel { st with metaPool := mp, dirPool := rest } sched.tail
      | (mp, .error e) =>
        match handle_err p mp e with
        | .error e2 => .error e2
        | .ok mp2 =>
          drainDirAux fs fuel { st with metaPool := mp2, dirPool := rest } sched.tail

/-- Lines 59-67: `while let Some(value) = poll_fn(|ctx| dir_js.poll_join_next(ctx)).await`.
Awaiting that future blocks while the set is nonempty with no completed task,
so the `while` reaps expansion tasks (in scheduler order) until the pool is
empty: it processes exactly `dirPool.length` tasks. -/
def drainDir (fs : FS) (st : State) (sched : List Nat) :
    Except IoError (State × List Nat) :=
  drainDirAux fs st.dirPool.length st sched

/-- The stat a metadata task performs when it runs: `fs::metadata` for the
link-following variant, `meta_with_path` otherwise. -/
def statFor (fs : FS) (t : MetaTask) : Path × Except IoError Metadata :=
  if t.follow then (t.path, fs.metadata t.path) else meta_with_path fs t.path

/-- Lines 92-122: dispatch on `meta.file_type()` after the dedup check:
regular file adds `meta.len()` to the total (u64 wrapping add); directory
spawns an expansion task; a symlink is re-stat'ed through the link when
`follow_symlinks` is set and dropped otherwise; other types are dropped. -/
def applyFileType (opts : Opts) (st : State) (path : Path) (meta : Metadata) : State :=
  match meta.ftype with
  | .file => { st with size := (st.size + meta.len) % U64 }
  | .dir => { st with dirPool := st.dirPool ++ [path] }
  | .symlink =>
    if opts.follow_symlinks then
      { st with metaPool := st.metaPool ++ [⟨true, path⟩] }
    else st
  | .otherType => st

/-- Lines 78-127: process one completed metadata task (already removed from
the pool).  An `Err` outcome goes to `handle_err`; an `Ok` outcome first runs
the hard-link dedup check
`!opts.ignore_hardlinks && meta.nlink() > 1 && !hashmap.insert((dev, ino))`
(`continue` when the pair was already present) and then dispatches on the
file type. -/
def processMeta (fs : FS) (opts : Opts) (st : State) (t : MetaTask) :
    Except IoError State :=
  match statFor fs t with
  | (path, .error e) =>
    match handle_err path st.metaPool e with
    | .error e2 => .error e2
    | .ok mp => .ok { st with metaPool := mp }
  | (path, .ok meta) =>
    if opts.ignore_hardlinks = false ∧ 1 < meta.nlink then
      match insertSeen st.seen (meta.dev, meta.ino) with
      | (false, s) => .ok { st with seen := s }
      | (true, s) => .ok (applyFileType opts { st with seen := s } path meta)
    else
      .ok (applyFileType opts st path meta)

/-- The driving loop (lines 58-128), with explicit fuel (`none` = fuel ran
out before the loop finished).  Each iteration drains the expansion pool
(which provably leaves it empty, see `drainDir_dirPool_eq_nil`, so the
`dir_js.join_next().await` under `if meta_js.lock().await.is_empty()` always
returns `None`, i.e. the `break` on line 70 fires); when the metadata pool is
also empty the loop breaks with the accumulated state, and otherwise one
completed metadata task is processed.  The `pick = none` arm mirrors the
`None => break` on line 79. -/
def runLoop (fs : FS) (opts : Opts) : Nat → State → List Nat → Option (Except IoError State)
  | 0, _, _ => none
  | fuel + 1, st, sched =>
    match drainDir fs st sched with
    | .error e => some (.error e)
    | .ok (st1, sched1) =>
      if st1.metaPool = [] then
        some (.ok st1)
      else
        match pick st1.metaPool (sched1.headD 0) with
        | none => some (.ok st1)
        | some (t, rest) =>
          match processMeta fs opts { st1 with metaPool := rest } t with
          | .error e => some (.error e)
          | .ok st2 => runLoop fs opts fuel st2 sched1.tail

/-- Line 52-56: pools start empty except for one `meta_with_path` task (a
non-following stat) on the root path, no seen inodes, `size = 0`. -/
def initState (path : Path) : State :=
  { metaPool := [⟨false, path⟩], dirPool := [], seen := [], size := 0 }

/-- `calc_space_usage(path, opts)` (lines 51-131): run the driving loop from
the initial state and return `Ok(size)`, a fatal `Err`, or `none` when the
given fuel did not suffice. -/
def calc_space_usage (fs : FS) (path : Path) (opts : Opts) (fuel : Nat)
    (sched : List Nat) : Option (Except IoError Nat) :=
  (runLoop fs opts fuel (initState path) sched).map (fun r => r.map State.size)

/-!
## Finite directory trees

`HTree` is a finite tree of regular files and directories — the shape of an
input filesystem with symlink-following disabled (or without symlinks).
Files carry the metadata fields the program consults; directories are given
`nlink = 1` and fresh irrelevant identifiers (their sizes are never added and
`nlink = 1` short-circuits the dedup check exactly as for the plain files the
claims quantify over).  `treeFS` interprets such a tree as an `FS` oracle:
node at path `p = [i₁, …, iₖ]` is the `iₖ`-th child of … of the `i₁`-th child
of the root.
-/

/-- A finite directory tree: regular files with stat fields, and directories
with a list of children. -/
inductive HTree where
  | file (len dev ino nlink : Nat)
  | dir (children : List HTree)

/-- The stat record of one regular file. -/
structure FileRec where
  len : Nat
  dev : Nat
  ino : Nat
  nlink : Nat
  deriving DecidableEq, Repr

mutual

/-- All regular-file records of a tree, in left-to-right order. -/
def HTree.files : HTree → List FileRec
  | .file l d i n => [⟨l, d, i, n⟩]
  | .dir cs => filesL cs

/-- `HTree.files` over a list of trees. -/
def filesL : List HTree → List FileRec
  | [] => []
  | c :: cs => c.files ++ filesL cs

end

mutual

/-- Number of machine steps needed to consume a tree: 1 metadata task per
node plus 1 expansion task per directory. -/
def HTree.weight : HTree → Nat
  | .file _ _ _ _ => 1
  | .dir cs => 2 + weightL cs

/-- `HTree.weight` summed over a list of trees. -/
def weightL : List HTree → Nat
  | [] => 0
  | c :: cs => c.weight + weightL cs

end

/-- Resolve a path to a subtree by indexing children. -/
def HTree.lookup : HTree → Path → Option HTree
  | t, [] => some t
  | .file _ _ _ _, _ :: _ => none
  | .dir cs, i :: p =>
    match cs.get? i with
    | some c => c.lookup p
    | none => none

/-- The stat record `treeFS` reports for a directory node: zero length,
`nlink = 1`, placeholder identifiers. -/
def dirMeta : Metadata := ⟨.dir, 0, 0, 0, 1⟩

/-- The metadata of a tree node. -/
def metaOf : HTree → Metadata
  | .file l d i n => ⟨.file, l, d, i, n⟩
  | .dir _ => dirMeta

/-- The child paths `read_dir` reports for a directory with `n` children at
path `p`. -/
def childPaths (p : Path) (n : Nat) : List Path :=
  (List.range n).map (fun i => p ++ [i])

/-- Interpret a finite tree as a filesystem oracle.  Stats of existing nodes
succeed with the node's metadata (symlink-free trees make the following and
non-following stat agree); stats of absent paths fail with `NotFound`;
`read_dir` succeeds exactly on directories. -/
def treeFS (t : HTree) : FS where
  symlink_metadata p :=
    match t.lookup p with
    | some n => .ok (metaOf n)
    | none => .error ⟨.notFound, 0⟩
  metadata p :=
    match t.lookup p with
    | some n => .ok (metaOf n)
    | none => .error ⟨.notFound, 0⟩
  read_dir p :=
    match t.lookup p with
    | some (.dir cs) => .ok (childPaths p cs.length)
    | _ => .error ⟨.otherKind, 0⟩

/-!
## The denotation of a traversal

The scheduler-independent value a traversal computes: every file with
`nlink ≤ 1` contributes its length, and — when deduplication is active —
each distinct `(dev, ino)` key of the multi-link files contributes once.
The consistency function `L` assigns each key its length (on a real
filesystem all hard links to one inode share one length). -/

/-- Sum of the lengths of a list of file records. -/
def lensSum (rs : List FileRec) : Nat := (rs.map FileRec.len).sum

/-- Sum of the lengths of the records with `nlink ≤ 1`. -/
def onceLens (rs : List FileRec) : Nat :=
  ((rs.filter (fun r => r.nlink ≤ 1)).map FileRec.len).sum

/-- The set of `(dev, ino)` keys of the records with `nlink > 1`. -/
def multiKeys (rs : List FileRec) : Finset (Nat × Nat) :=
  ((rs.filter (fun r => 1 < r.nlink)).map (fun r => (r.dev, r.ino))).toFinset

/-- The value still to be contributed by a list of pending file records,
given the already-seen key set `S`: with dedup disabled every record counts;
otherwise singly-linked records count and unseen multi-link keys count once
each (with length `L`). -/
def pendVal (ign : Bool) (L : Nat × Nat → Nat) (S : Finset (Nat × Nat))
    (rs : List FileRec) : Nat :=
  if ign then lensSum rs else onceLens rs + ∑ x ∈ multiKeys rs \ S, L x

/-- The total a traversal of tree `t` denotes (before `u64` reduction). -/
def canonicalTotal (ign : Bool) (L : Nat × Nat → Nat) (t : HTree) : Nat :=
  pendVal ign L ∅ t.files

/-- The subtrees the pending tasks of a state refer to. -/
def pendingNodes (t : HTree) (st : State) : List HTree :=
  st.metaPool.filterMap (fun mt => t.lookup mt.path)
    ++ st.dirPool.filterMap (fun p => t.lookup p)

/-- The file records below the pending tasks of a state. -/
def pendingRecs (t : HTree) (st : State) : List FileRec :=
  (pendingNodes t st).flatMap HTree.files

/-- Remaining step count of a pending metadata task. -/
def nodeW (t : HTree) (p : Path) : Nat :=
  match t.lookup p with
  | some n => n.weight
  | none => 0

/-- Remaining step count of a pending expansion task. -/
def dirTaskW (t : HTree) (p : Path) : Nat :=
  match t.lookup p with
  | some (.dir cs) => 1 + weightL cs
  | _ => 0

/-- Termination measure of a state: total remaining step count. -/
def measureM (t : HTree) (st : State) : Nat :=
  (st.metaPool.map (fun mt => nodeW t mt.path)).sum
    + (st.dirPool.map (dirTaskW t)).sum

/-- Invariant of every state reachable while traversing `treeFS t`: all
pending metadata tasks are non-following stats of existing nodes, and all
pending expansion tasks point at directories. -/
structure TInv (t : HTree) (st : State) : Prop where
  meta_follow : ∀ mt ∈ st.metaPool, mt.follow = false
  meta_lookup : ∀ mt ∈ st.metaPool, ∃ n, t.lookup mt.path = some n
  dir_lookup : ∀ p ∈ st.dirPool, ∃ cs, t.lookup p = some (HTree.dir cs)

/-!
## Oracles and a spec-side drain used to settle individual claims
-/

/-- Modelled from the spec: "Drain every already-completed expansion task
without suspending (non-blocking poll).  For each: success is a no-op;
failure is routed to the shared error handler."  `completed` marks which
in-flight expansion tasks have already completed; the others are left in the
pool untouched, and the step returns immediately. -/
def drainDirPolled (fs : FS) (st : State) (completed : Path → Bool) :
    Except IoError State :=
  (st.dirPool.filter completed).foldl
    (fun acc p =>
      match acc with
      | .error e => .error e
      | .ok s =>
        match expandTask fs p s.metaPool with
        | (mp, .ok _) => .ok { s with metaPool := mp }
        | (mp, .error e) =>
          match handle_err p mp e with
          | .error e2 => .error e2
          | .ok mp2 => .ok { s with metaPool := mp2 })
    (.ok { st with dirPool := st.dirPool.filter (fun p => !(completed p)) })

/-- An oracle whose directories all list empty. -/
def fsListingEmpty : FS where
  symlink_metadata _ := .ok dirMeta
  metadata _ := .ok dirMeta
  read_dir _ := .ok []

/-- An oracle whose link-following stat fails with `OutOfMemory`. -/
def fsFollowOom : FS where
  symlink_metadata _ := .error ⟨.notFound, 0⟩
  metadata _ := .error ⟨.outOfMemory, 0⟩
  read_dir _ := .error ⟨.notFound, 0⟩

/-- An oracle whose directory listings fail with `OutOfMemory`. -/
def fsExpandOom : FS where
  symlink_metadata _ := .ok dirMeta
  metadata _ := .ok dirMeta
  read_dir _ := .error ⟨.outOfMemory, 0⟩

/-- An oracle on which every operation fails with the given error. -/
def failFS (e : IoError) : FS where
  symlink_metadata _ := .error e
  metadata _ := .error e
  read_dir _ := .error e

/-- An oracle whose root is an empty directory with `link_count = 2` at
`(dev, ino) = (5, 9)`. -/
def fsDirHardlink : FS where
  symlink_metadata _ := .ok ⟨.dir, 0, 5, 9, 2⟩
  metadata _ := .ok ⟨.dir, 0, 5, 9, 2⟩
  read_dir _ := .ok []

/-- An oracle whose root path is a symlink to a 100-byte file. -/
def fsSymRoot : FS where
  symlink_metadata _ := .ok ⟨.symlink, 100, 2, 2, 1⟩
  metadata _ := .ok ⟨.file, 100, 2, 2, 1⟩
  read_dir _ := .error ⟨.otherKind, 0⟩

/-! ## Basic lemmas about the scheduler pick -/

theorem getD_cons_eraseIdx_perm :
    ∀ (l : List α) (i : Nat), i < l.length → ∀ a : α,
      l.Perm (l.getD i a :: l.eraseIdx i) := by
  intro l
  induction l with
  | nil => intro i h a; simp at h
  | cons b bs ih =>
    intro i h a
    cases i with
    | zero => simp [List.getD]
    | succ i =>
      rw [List.getD_cons_succ, List.eraseIdx_cons_succ]
      have hi : i < bs.length := by simpa using h
      exact ((ih i hi a).cons b).trans (List.Perm.swap _ b _)

theorem pick_eq_none {l : List α} {n : Nat} (h : pick l n = none) : l = [] := by
  cases l with
  | nil => rfl
  | cons a as => simp [pick] at h

theorem pick_perm {l l' : List α} {n : Nat} {x : α}
    (h : pick l n = some (x, l')) : l.Perm (x :: l') := by
  cases l with
  | nil => simp [pick] at h
  | cons a as =>
    simp only [pick, Option.some.injEq, Prod.mk.injEq] at h
    obtain ⟨hx, hl⟩ := h
    subst hx; subst hl
    exact getD_cons_eraseIdx_perm (a :: as) _ (Nat.mod_lt _ (Nat.succ_pos _)) a

theorem pick_length {l l' : List α} {n : Nat} {x : α}
    (h : pick l n = some (x, l')) : l'.length + 1 = l.length := by
  have := (pick_perm h).length_eq
  simpa using this.symm

theorem pick_mem {l l' : List α} {n : Nat} {x : α}
    (h : pick l n = some (x, l')) : x ∈ l :=
  (pick_perm h).symm.subset (List.mem_cons_self x l')

theorem pick_map_sum {l l' : List α} {n : Nat} {x : α}
    (f : α → Nat) (h : pick l n = some (x, l')) :
    (l.map f).sum = f x + (l'.map f).sum :=
  ((pick_perm h).map f).sum_eq

/-! ## Permutation invariance of the pending value -/

theorem perm_toFinset [DecidableEq α] {l₁ l₂ : List α} (h : l₁.Perm l₂) :
    l₁.toFinset = l₂.toFinset := by
  apply Finset.ext
  intro x
  simp [List.mem_toFinset, h.mem_iff]

theorem lensSum_perm {rs rs' : List FileRec} (h : rs.Perm rs') :
    lensSum rs = lensSum rs' :=
  (h.map FileRec.len).sum_eq

theorem onceLens_perm {rs rs' : List FileRec} (h : rs.Perm rs') :
    onceLens rs = onceLens rs' :=
  (((h.filter _).map FileRec.len)).sum_eq

theorem multiKeys_perm {rs rs' : List FileRec} (h : rs.Perm rs') :
    multiKeys rs = multiKeys rs' :=
  perm_toFinset ((h.filter _).map _)

theorem pendVal_perm (ign : Bool) (L : Nat × Nat → Nat) (S : Finset (Nat × Nat))
    {rs rs' : List FileRec} (h : rs.Perm rs') :
    pendVal ign L S rs = pendVal ign L S rs' := by
  unfold pendVal
  rw [lensSum_perm h, onceLens_perm h, multiKeys_perm h]

/-! ## Finset bookkeeping for the dedup step -/

theorem sdiff_insert_of_mem {A S : Finset (Nat × Nat)} {x : Nat × Nat}
    (hx : x ∈ S) : insert x A \ S = A \ S := by
  apply Finset.ext
  intro y
  simp only [Finset.mem_sdiff, Finset.mem_insert]
  constructor
  · rintro ⟨hy | hy, hyS⟩
    · exact absurd (hy ▸ hx) hyS
    · exact ⟨hy, hyS⟩
  · rintro ⟨hy, hyS⟩; exact ⟨Or.inr hy, hyS⟩

theorem sum_insert_sdiff (L : Nat × Nat → Nat) {A S : Finset (Nat × Nat)}
    {x : Nat × Nat} (hx : x ∉ S) :
    (∑ y ∈ insert x A \ S, L y) = L x + ∑ y ∈ A \ insert x S, L y := by
  have h1 : insert x A \ S = insert x (A \ S) := by
    apply Finset.ext
    intro y
    simp only [Finset.mem_sdiff, Finset.mem_insert]
    constructor
    · rintro ⟨hy | hy, hyS⟩
      · exact Or.inl hy
      · exact Or.inr ⟨hy, hyS⟩
    · rintro (hy | ⟨hy, hyS⟩)
      · exact ⟨Or.inl hy, hy ▸ hx⟩
      · exact ⟨Or.inr hy, hyS⟩
  have h2 : A \ insert x S = (A \ S).erase x := by
    apply Finset.ext
    intro y
    simp only [Finset.mem_sdiff, Finset.mem_insert, Finset.mem_erase]
    constructor
    · rintro ⟨hy, hne⟩
      push_neg at hne
      exact ⟨hne.1, hy, hne.2⟩
    · rintro ⟨hne, hy, hyS⟩
      refine ⟨hy, ?_⟩
      push_neg
      exact ⟨hne, hyS⟩
  rw [h1, h2]
  by_cases hxA : x ∈ A \ S
  · rw [Finset.insert_eq_self.mpr hxA, ← Finset.add_sum_erase _ L hxA]
  · rw [Finset.sum_insert hxA, Finset.erase_eq_of_not_mem hxA]

/-! ## Decomposition of the pending value at one record -/

theorem pendVal_cons_ignore (L : Nat × Nat → Nat) (S : Finset (Nat × Nat))
    (r : FileRec) (rs : List FileRec) :
    pendVal true L S (r :: rs) = r.len + pendVal true L S rs := by
  simp [pendVal, lensSum]

theorem pendVal_cons_once (L : Nat × Nat → Nat) (S : Finset (Nat × Nat))
    {r : FileRec} (rs : List FileRec) (h : r.nlink ≤ 1) :
    pendVal false L S (r :: rs) = r.len + pendVal false L S rs := by
  have h' : ¬ 1 < r.nlink := by omega
  simp [pendVal, onceLens, multiKeys, List.filter_cons, h, h', Nat.add_assoc]

theorem pendVal_cons_multi_seen (L : Nat × Nat → Nat) {S : Finset (Nat × Nat)}
    {r : FileRec} (rs : List FileRec) (h : 1 < r.nlink)
    (hx : (r.dev, r.ino) ∈ S) :
    pendVal false L S (r :: rs) = pendVal false L S rs := by
  have h' : ¬ r.nlink ≤ 1 := by omega
  simp only [pendVal, if_neg Bool.false_ne_true, onceLens, multiKeys,
    List.filter_cons, decide_eq_true_eq, if_pos h, if_neg h', List.map_cons,
    List.toFinset_cons]
  rw [sdiff_insert_of_mem hx]

theorem pendVal_cons_multi_fresh (L : Nat × Nat → Nat) {S : Finset (Nat × Nat)}
    {r : FileRec} (rs : List FileRec) (h : 1 < r.nlink)
    (hx : (r.dev, r.ino) ∉ S) :
    pendVal false L S (r :: rs)
      = L (r.dev, r.ino) + pendVal false L (insert (r.dev, r.ino) S) rs := by
  have h' : ¬ r.nlink ≤ 1 := by omega
  simp only [pendVal, if_neg Bool.false_ne_true, onceLens, multiKeys,
    List.filter_cons, decide_eq_true_eq, if_pos h, if_neg h', List.map_cons,
    List.toFinset_cons]
  rw [sum_insert_sdiff L hx]
  omega

/-! ## Path resolution in a tree -/

theorem lookup_append : ∀ (p : Path) (t : HTree) (q : Path),
    t.lookup (p ++ q) = match t.lookup p with
      | some n => n.lookup q
      | none => none := by
  intro p
  induction p with
  | nil => intro t q; simp [HTree.lookup]
  | cons i p ih =>
    intro t q
    cases t with
    | file l d j n => simp [HTree.lookup]
    | dir cs =>
      simp only [List.cons_append, HTree.lookup]
      cases cs.get? i with
      | none => rfl
      | some c => exact ih c q

theorem lookup_child {t : HTree} {p : Path} {cs : List HTree}
    (h : t.lookup p = some (.dir cs)) (i : Nat) :
    t.lookup (p ++ [i]) = cs.get? i := by
  rw [lookup_append, h]
  simp only [HTree.lookup]
  cases cs.get? i with
  | none => rfl
  | some c => rfl

/-! ## Children of an expanded directory -/

theorem range_filterMap_get : ∀ (cs : List α),
    (List.range cs.length).filterMap (fun i => cs.get? i) = cs := by
  intro cs
  induction cs with
  | nil => simp
  | cons c cs ih =>
    rw [List.length_cons, List.range_succ_eq_map, List.filterMap_cons]
    simp only [List.get?_cons_zero, List.filterMap_map]
    have ht : List.filterMap ((fun i => (c :: cs).get? i) ∘ Nat.succ)
        (List.range cs.length) = cs := by
      rw [List.filterMap_congr (fun i _ => by
        rw [Function.comp_apply, List.get?_cons_succ])]
      exact ih
    rw [ht]

theorem range_map_get (g : α → Nat) : ∀ (cs : List α),
    ((List.range cs.length).map (fun i => ((cs.get? i).map g).getD 0)).sum
      = (cs.map g).sum := by
  intro cs
  induction cs with
  | nil => simp
  | cons c cs ih =>
    rw [List.length_cons, List.range_succ_eq_map, List.map_cons, List.map_map,
      List.map_cons, List.sum_cons, List.sum_cons]
    have ht : List.map ((fun i => (((c :: cs).get? i).map g).getD 0) ∘ Nat.succ)
        (List.range cs.length)
        = List.map (fun i => ((cs.get? i).map g).getD 0) (List.range cs.length) := by
      apply List.map_congr_left
      intro i _
      rw [Function.comp_apply, List.get?_cons_succ]
    rw [ht, ih]
    rfl

theorem childPaths_filterMap_lookup {t : HTree} {p : Path} {cs : List HTree}
    (h : t.lookup p = some (.dir cs)) :
    (childPaths p cs.length).filterMap (fun c => t.lookup c) = cs := by
  unfold childPaths
  rw [List.filterMap_map]
  rw [List.filterMap_congr (g := fun i => cs.get? i)
      (fun i _ => by rw [Function.comp_apply, lookup_child h])]
  exact range_filterMap_get cs

theorem nodeW_eq_getD {t : HTree} {p : Path} {cs : List HTree}
    (h : t.lookup p = some (.dir cs)) (i : Nat) :
    nodeW t (p ++ [i]) = ((cs.get? i).map HTree.weight).getD 0 := by
  unfold nodeW
  rw [lookup_child h]
  cases cs.get? i with
  | none => rfl
  | some c => rfl

theorem childPaths_map_nodeW {t : HTree} {p : Path} {cs : List HTree}
    (h : t.lookup p = some (.dir cs)) :
    ((childPaths p cs.length).map (fun c => nodeW t c)).sum
      = (cs.map HTree.weight).sum := by
  unfold childPaths
  rw [List.map_map]
  have ht : List.map ((fun c => nodeW t c) ∘ fun i => p ++ [i])
      (List.range cs.length)
      = List.map (fun i => ((cs.get? i).map HTree.weight).getD 0)
        (List.range cs.length) := by
    apply List.map_congr_left
    intro i _
    rw [Function.comp_apply, nodeW_eq_getD h]
  rw [ht]
  exact range_map_get HTree.weight cs

/-! ## Lists of records and weights -/

theorem filesL_eq_flatMap : ∀ (cs : List HTree),
    filesL cs = cs.flatMap HTree.files := by
  intro cs
  induction cs with
  | nil => rfl
  | cons c cs ih => rw [filesL, List.flatMap_cons, ih]

theorem weightL_eq_sum : ∀ (cs : List HTree),
    weightL cs = (cs.map HTree.weight).sum := by
  intro cs
  induction cs with
  | nil => rfl
  | cons c cs ih => rw [weightL, List.map_cons, List.sum_cons, ih]

/-! ## The reachability invariant of a tree traversal -/

theorem pendVal_nil (ign : Bool) (L : Nat × Nat → Nat) (S : Finset (Nat × Nat)) :
    pendVal ign L S [] = 0 := by
  cases ign <;> simp [pendVal, lensSum, onceLens, multiKeys]

theorem pendingRecs_perm {t : HTree} {st st' : State}
    (h : (pendingNodes t st).Perm (pendingNodes t st')) :
    (pendingRecs t st).Perm (pendingRecs t st') :=
  h.flatMap_right HTree.files

/-- The file records pending in a state, decomposed pool by pool. -/
theorem pendingRecs_decomp (t : HTree) (mp : List MetaTask) (dp : List Path)
    (sn : List (Nat × Nat)) (sz : Nat) :
    pendingRecs t ⟨mp, dp, sn, sz⟩
      = (mp.filterMap (fun mt => t.lookup mt.path)).flatMap HTree.files
        ++ (dp.filterMap (fun q => t.lookup q)).flatMap HTree.files := by
  unfold pendingRecs pendingNodes
  rw [List.flatMap_append]

/-- Draining the expansion pool of a tree traversal: it succeeds, empties the
pool, spawns exactly the children of the drained directories, and leaves the
seen set, the size, the pending records (up to permutation) and the invariant
intact, decreasing the measure by one per drained task. -/
theorem drainAux_tree (t : HTree) : ∀ (fuel : Nat) (st : State) (sched : List Nat),
    st.dirPool.length ≤ fuel → TInv t st →
    ∃ st1 sched1, drainDirAux (treeFS t) fuel st sched = .ok (st1, sched1)
      ∧ TInv t st1 ∧ st1.dirPool = [] ∧ st1.seen = st.seen ∧ st1.size = st.size
      ∧ (pendingRecs t st1).Perm (pendingRecs t st)
      ∧ measureM t st1 + st.dirPool.length = measureM t st := by
  intro fuel
  induction fuel with
  | zero =>
    intro st sched hlen inv
    have hnil : st.dirPool = [] := List.length_eq_zero.mp (Nat.le_zero.mp hlen)
    exact ⟨st, sched, rfl, inv, hnil, rfl, rfl, List.Perm.refl _, by rw [hnil]; rfl⟩
  | succ fuel ih =>
    intro st sched hlen inv
    match hp : pick st.dirPool (sched.headD 0) with
    | none =>
      have hnil : st.dirPool = [] := pick_eq_none hp
      refine ⟨st, sched, ?_, inv, hnil, rfl, rfl, List.Perm.refl _, by rw [hnil]; rfl⟩
      unfold drainDirAux
      rw [hp]
    | some (p, rest) =>
      obtain ⟨mp, dp, sn, sz⟩ := st
      simp only [State.dirPool] at hp
      obtain ⟨cs, hlk⟩ := inv.dir_lookup p (pick_mem hp)
      have hrd : (treeFS t).read_dir p = .ok (childPaths p cs.length) := by
        simp [treeFS, hlk]
      have hexp : expandTask (treeFS t) p mp
          = (mp ++ (childPaths p cs.length).map (fun c => ⟨false, c⟩), .ok ()) := by
        unfold expandTask
        rw [hrd]
      have hrun : drainDirAux (treeFS t) (fuel + 1) ⟨mp, dp, sn, sz⟩ sched
          = drainDirAux (treeFS t) fuel
              ⟨mp ++ (childPaths p cs.length).map (fun c => ⟨false, c⟩), rest, sn, sz⟩
              sched.tail := by
        simp only [drainDirAux, State.dirPool, State.metaPool, State.seen, State.size]
        rw [hp]
        dsimp only
        rw [hexp]
      have hlen' : rest.length ≤ fuel := by
        have := pick_length hp
        simp only [State.dirPool] at hlen this
        omega
      have inv' : TInv t
          ⟨mp ++ (childPaths p cs.length).map (fun c => ⟨false, c⟩), rest, sn, sz⟩ := by
        refine ⟨?_, ?_, ?_⟩
        · intro mt hmt
          simp only [State.metaPool, List.mem_append, List.mem_map] at hmt
          rcases hmt with hmt | ⟨c, _, rfl⟩
          · exact inv.meta_follow mt hmt
          · rfl
        · intro mt hmt
          simp only [State.metaPool, List.mem_append, List.mem_map] at hmt
          rcases hmt with hmt | ⟨c, hc, rfl⟩
          · exact inv.meta_lookup mt hmt
          · simp only [childPaths, List.mem_map, List.mem_range] at hc
            obtain ⟨i, hi, rfl⟩ := hc
            refine ⟨cs.get ⟨i, hi⟩, ?_⟩
            rw [lookup_child hlk, List.get?_eq_get hi]
        · intro q hq
          apply inv.dir_lookup
          exact (pick_perm hp).symm.subset (List.mem_cons_of_mem p hq)
      have hmeta : (mp ++ (childPaths p cs.length).map (fun c => (⟨false, c⟩ : MetaTask))).filterMap
            (fun mt => t.lookup mt.path)
          = mp.filterMap (fun mt => t.lookup mt.path) ++ cs := by
        rw [List.filterMap_append, List.filterMap_map]
        congr 1
        exact childPaths_filterMap_lookup hlk
      have hdir : (dp.filterMap (fun q => t.lookup q)).Perm
          (HTree.dir cs :: rest.filterMap (fun q => t.lookup q)) := by
        have h1 := (pick_perm hp).filterMap (fun q => t.lookup q)
        rwa [List.filterMap_cons_some hlk] at h1
      have hrecs : (pendingRecs t
            ⟨mp ++ (childPaths p cs.length).map (fun c => ⟨false, c⟩), rest, sn, sz⟩).Perm
          (pendingRecs t ⟨mp, dp, sn, sz⟩) := by
        rw [pendingRecs_decomp, pendingRecs_decomp, hmeta, List.flatMap_append]
        have hfiles : cs.flatMap HTree.files = (HTree.dir cs).files := by
          rw [HTree.files, filesL_eq_flatMap]
        rw [List.append_assoc, hfiles, ← List.flatMap_cons]
        exact (hdir.symm.flatMap_right HTree.files).append_left _
      have hmeas : measureM t
            ⟨mp ++ (childPaths p cs.length).map (fun c => ⟨false, c⟩), rest, sn, sz⟩ + 1
          = measureM t ⟨mp, dp, sn, sz⟩ := by
        unfold measureM
        simp only [State.metaPool, State.dirPool]
        rw [List.map_append, List.sum_append, List.map_map]
        have hcw : ((childPaths p cs.length).map
              ((fun mt => nodeW t mt.path) ∘ fun c => (⟨false, c⟩ : MetaTask))).sum
            = weightL cs := by
          rw [show ((fun mt => nodeW t mt.path) ∘ fun c => (⟨false, c⟩ : MetaTask))
              = fun c => nodeW t c from rfl]
          rw [childPaths_map_nodeW hlk, weightL_eq_sum]
        have hdw : (dp.map (dirTaskW t)).sum
            = dirTaskW t p + (rest.map (dirTaskW t)).sum :=
          pick_map_sum (dirTaskW t) hp
        have hdp : dirTaskW t p = 1 + weightL cs := by
          unfold dirTaskW
          rw [hlk]
        rw [hcw, hdw, hdp]
        omega
      obtain ⟨st1, sched1, hres, inv1, hnil1, hsn1, hsz1, hperm1, hmeas1⟩ :=
        ih ⟨mp ++ (childPaths p cs.length).map (fun c => ⟨false, c⟩), rest, sn, sz⟩
          sched.tail hlen' inv'
      refine ⟨st1, sched1, ?_, inv1, hnil1, hsn1, hsz1, hperm1.trans hrecs, ?_⟩
      · rw [hrun]
        exact hres
      · have hplen : rest.length + 1 = dp.length := pick_length hp
        simp only [State.dirPool] at hmeas1 ⊢
        omega

/-- Processing one completed metadata task of a tree traversal: it succeeds,
preserves the invariant, decreases the measure by one, and transfers the
processed record's contribution from the pending value into the running
total. -/
theorem processMeta_tree (t : HTree) (L : Nat × Nat → Nat) (opts : Opts)
    (HL : ∀ r ∈ t.files, 1 < r.nlink → r.len = L (r.dev, r.ino))
    {mp rest : List MetaTask} {mt : MetaTask} {dp : List Path}
    {sn : List (Nat × Nat)} {sz : Nat} {nn : Nat}
    (inv : TInv t ⟨mp, dp, sn, sz⟩)
    (hsub : ∀ r ∈ pendingRecs t ⟨mp, dp, sn, sz⟩, r ∈ t.files)
    (hpick : pick mp nn = some (mt, rest)) :
    ∃ st2 a, processMeta (treeFS t) opts ⟨rest, dp, sn, sz⟩ mt = .ok st2
      ∧ TInv t st2
      ∧ (∀ r ∈ pendingRecs t st2, r ∈ t.files)
      ∧ measureM t st2 + 1 = measureM t ⟨mp, dp, sn, sz⟩
      ∧ ((a = 0 ∧ st2.size = sz) ∨ st2.size = (sz + a) % U64)
      ∧ a + pendVal opts.ignore_hardlinks L st2.seen.toFinset (pendingRecs t st2)
          = pendVal opts.ignore_hardlinks L sn.toFinset
              (pendingRecs t ⟨mp, dp, sn, sz⟩) := by
  obtain ⟨n, hn⟩ := inv.meta_lookup mt (pick_mem hpick)
  have hfollow := inv.meta_follow mt (pick_mem hpick)
  have hstat : statFor (treeFS t) mt = (mt.path, .ok (metaOf n)) := by
    unfold statFor meta_with_path
    rw [hfollow]
    simp [treeFS, hn]
  have hmetaperm : (mp.filterMap (fun x => t.lookup x.path)).Perm
      (n :: rest.filterMap (fun x => t.lookup x.path)) := by
    have h1 := (pick_perm hpick).filterMap (fun x => t.lookup x.path)
    rwa [List.filterMap_cons_some (f := fun (x : MetaTask) => t.lookup x.path) hn] at h1
  have hrecs1 : (pendingRecs t ⟨mp, dp, sn, sz⟩).Perm
      (n.files ++ pendingRecs t ⟨rest, dp, sn, sz⟩) := by
    rw [pendingRecs_decomp, pendingRecs_decomp, ← List.append_assoc,
      ← List.flatMap_cons]
    exact (hmetaperm.flatMap_right HTree.files).append_right _
  have hsub2 : ∀ r ∈ pendingRecs t ⟨rest, dp, sn, sz⟩, r ∈ t.files := by
    intro r hr
    exact hsub r (hrecs1.symm.subset (List.mem_append_right _ hr))
  have hnsub : ∀ r ∈ n.files, r ∈ t.files := by
    intro r hr
    exact hsub r (hrecs1.symm.subset (List.mem_append_left _ hr))
  have hms : (mp.map (fun x => nodeW t x.path)).sum
      = n.weight + (rest.map (fun x => nodeW t x.path)).sum := by
    rw [pick_map_sum (fun x => nodeW t x.path) hpick]
    congr 1
    unfold nodeW
    rw [hn]
  have invRest : TInv t ⟨rest, dp, sn, sz⟩ := by
    refine ⟨?_, ?_, inv.dir_lookup⟩
    · intro x hx
      exact inv.meta_follow x ((pick_perm hpick).symm.subset (List.mem_cons_of_mem _ hx))
    · intro x hx
      exact inv.meta_lookup x ((pick_perm hpick).symm.subset (List.mem_cons_of_mem _ hx))
  cases n with
  | file l d i nl =>
    have hrfiles : (HTree.file l d i nl).files = [⟨l, d, i, nl⟩] := rfl
    have hrecs1' : (pendingRecs t ⟨mp, dp, sn, sz⟩).Perm
        ((⟨l, d, i, nl⟩ : FileRec) :: pendingRecs t ⟨rest, dp, sn, sz⟩) := by
      rw [hrfiles] at hrecs1
      exact hrecs1
    have hrmem : (⟨l, d, i, nl⟩ : FileRec) ∈ t.files := by
      apply hnsub
      rw [hrfiles]
      exact List.mem_cons_self _ _
    by_cases hded : opts.ignore_hardlinks = false ∧ 1 < nl
    · by_cases hx : (d, i) ∈ sn
      · refine ⟨⟨rest, dp, sn, sz⟩, 0, ?_, invRest, hsub2, ?_, Or.inl ⟨rfl, rfl⟩, ?_⟩
        · unfold processMeta
          rw [hstat]
          dsimp only [metaOf]
          rw [if_pos hded]
          rw [show insertSeen sn (d, i) = (false, sn) from by
            simp [insertSeen, hx]]
        · unfold measureM
          dsimp only
          rw [hms]
          have hw : (HTree.file l d i nl).weight = 1 := rfl
          omega
        · rw [Nat.zero_add, hded.1]
          rw [pendVal_perm false L sn.toFinset hrecs1']
          exact (pendVal_cons_multi_seen L _ hded.2 (List.mem_toFinset.mpr hx)).symm
      · refine ⟨⟨rest, dp, (d, i) :: sn, (sz + l) % U64⟩, l, ?_, ?_, hsub2, ?_,
          Or.inr rfl, ?_⟩
        · unfold processMeta
          rw [hstat]
          dsimp only [metaOf]
          rw [if_pos hded]
          rw [show insertSeen sn (d, i) = (true, (d, i) :: sn) from by
            simp [insertSeen, hx]]
          rfl
        · exact ⟨invRest.meta_follow, invRest.meta_lookup, invRest.dir_lookup⟩
        · unfold measureM
          dsimp only
          rw [hms]
          have hw : (HTree.file l d i nl).weight = 1 := rfl
          omega
        · rw [hded.1]
          rw [pendVal_perm false L sn.toFinset hrecs1']
          rw [pendVal_cons_multi_fresh L _ hded.2
            (fun hc => hx (List.mem_toFinset.mp hc))]
          have hL : l = L (d, i) := HL _ hrmem hded.2
          dsimp only [State.seen]
          rw [List.toFinset_cons]
          rw [← hL]
          rfl
    · refine ⟨⟨rest, dp, sn, (sz + l) % U64⟩, l,
        ?_, ⟨invRest.meta_follow, invRest.meta_lookup, invRest.dir_lookup⟩,
        hsub2, ?_, Or.inr rfl, ?_⟩
      · unfold processMeta
        rw [hstat]
        dsimp only [metaOf]
        rw [if_neg hded]
        rfl
      · unfold measureM
        dsimp only
        rw [hms]
        have hw : (HTree.file l d i nl).weight = 1 := rfl
        omega
      · dsimp only [State.seen]
        have hpr : pendingRecs t ⟨rest, dp, sn, (sz + l) % U64⟩
            = pendingRecs t ⟨rest, dp, sn, sz⟩ := rfl
        rw [hpr]
        cases hign : opts.ignore_hardlinks with
        | true =>
          rw [pendVal_perm true L sn.toFinset hrecs1']
          exact (pendVal_cons_ignore L sn.toFinset ⟨l, d, i, nl⟩ _).symm
        | false =>
          have hnl : nl ≤ 1 := by
            by_contra hc
            exact hded ⟨hign, by omega⟩
          rw [pendVal_perm false L sn.toFinset hrecs1']
          exact (pendVal_cons_once L sn.toFinset (r := ⟨l, d, i, nl⟩) _ hnl).symm
  | dir cs =>
    have hcond : ¬ (opts.ignore_hardlinks = false ∧ 1 < 1) := by
      intro h
      exact absurd h.2 (by decide)
    have hdirrecs : pendingRecs t ⟨rest, dp ++ [mt.path], sn, sz⟩
        = pendingRecs t ⟨rest, dp, sn, sz⟩ ++ (HTree.dir cs).files := by
      rw [pendingRecs_decomp, pendingRecs_decomp]
      rw [List.filterMap_append, List.flatMap_append, ← List.append_assoc]
      congr 1
      rw [List.filterMap_cons_some hn, List.filterMap_nil, List.flatMap_cons]
      simp
    have hperm2 : (pendingRecs t ⟨rest, dp ++ [mt.path], sn, sz⟩).Perm
        (pendingRecs t ⟨mp, dp, sn, sz⟩) := by
      rw [hdirrecs]
      exact (List.perm_append_comm).trans hrecs1.symm
    refine ⟨⟨rest, dp ++ [mt.path], sn, sz⟩, 0, ?_, ?_, ?_, ?_,
      Or.inl ⟨rfl, rfl⟩, ?_⟩
    · unfold processMeta
      rw [hstat]
      dsimp only [metaOf, dirMeta]
      rw [if_neg hcond]
      rfl
    · refine ⟨invRest.meta_follow, invRest.meta_lookup, ?_⟩
      intro q hq
      rcases List.mem_append.mp hq with hq | hq
      · exact invRest.dir_lookup q hq
      · rw [List.mem_singleton.mp hq]
        exact ⟨cs, hn⟩
    · intro r hr
      exact hsub r (hperm2.subset hr)
    · unfold measureM
      dsimp only
      rw [hms, List.map_append, List.sum_append]
      have hw : (HTree.dir cs).weight = 2 + weightL cs := rfl
      have hdt : ((([mt.path] : List Path)).map (dirTaskW t)).sum
          = 1 + weightL cs := by
        have hone : dirTaskW t mt.path = 1 + weightL cs := by
          unfold dirTaskW
          rw [hn]
        simp [hone]
      rw [hdt, hw]
      omega
    · rw [Nat.zero_add]
      dsimp only [State.seen]
      exact pendVal_perm _ L sn.toFinset hperm2


/-- The driving loop of a tree traversal, run from any invariant state with
enough fuel: it completes with `Ok`, and the final total is the starting
count plus the pending value, reduced modulo `2 ^ 64`. -/
theorem runLoop_tree (t : HTree) (L : Nat × Nat → Nat) (opts : Opts)
    (HL : ∀ r ∈ t.files, 1 < r.nlink → r.len = L (r.dev, r.ino)) :
    ∀ (fuel : Nat) (st : State) (sched : List Nat) (S : Nat),
      TInv t st → (∀ r ∈ pendingRecs t st, r ∈ t.files) →
      st.size = S % U64 → measureM t st < fuel →
      ∃ st', runLoop (treeFS t) opts fuel st sched = some (.ok st')
        ∧ st'.size = (S + pendVal opts.ignore_hardlinks L st.seen.toFinset
            (pendingRecs t st)) % U64 := by
  intro fuel
  induction fuel with
  | zero =>
    intro st sched S _ _ _ hm
    exact absurd hm (Nat.not_lt_zero _)
  | succ fuel ih =>
    intro st sched S inv hsub hsz hm
    obtain ⟨st1, sched1, hdrain, inv1, hnil1, hsn1, hsz1, hperm1, hmeas1⟩ :=
      drainAux_tree t st.dirPool.length st sched (le_refl _) inv
    obtain ⟨mp1, dp1, sn1, sz1⟩ := st1
    simp only [State.metaPool, State.dirPool, State.seen, State.size] at hnil1 hsn1 hsz1
    by_cases hmp : mp1 = []
    · subst hmp
      subst hnil1
      refine ⟨⟨[], [], sn1, sz1⟩, ?_, ?_⟩
      · simp only [runLoop]
        rw [show drainDir (treeFS t) st sched
            = Except.ok ((⟨[], [], sn1, sz1⟩ : State), sched1) from hdrain]
        dsimp only
        rw [if_pos rfl]
      · have hrecs1nil : pendingRecs t ⟨[], [], sn1, sz1⟩ = [] := rfl
        rw [hrecs1nil] at hperm1
        have hnil : pendingRecs t st = [] := hperm1.symm.eq_nil
        rw [hnil, pendVal_nil, Nat.add_zero]
        simp only [State.size]
        rw [hsz1, hsz]
    · match hpick : pick mp1 (sched1.headD 0) with
      | none => exact absurd (pick_eq_none hpick) hmp
      | some (mt, rest) =>
        have hsub1 : ∀ r ∈ pendingRecs t ⟨mp1, dp1, sn1, sz1⟩, r ∈ t.files :=
          fun r hr => hsub r (hperm1.subset hr)
        obtain ⟨st2, a, hproc, inv2, hsub2, hmeas2, hsize2, heq2⟩ :=
          processMeta_tree t L opts HL inv1 hsub1 hpick
        have hsz2 : st2.size = (S + a) % U64 := by
          rcases hsize2 with ⟨ha, hs⟩ | hs
          · rw [hs, hsz1, hsz, ha, Nat.add_zero]
          · rw [hs, hsz1, hsz, Nat.mod_add_mod]
        have hm2 : measureM t st2 < fuel := by
          have h1 := hmeas1
          have h2 := hmeas2
          omega
        obtain ⟨st', hrun', hsz'⟩ := ih st2 sched1.tail (S + a) inv2 hsub2 hsz2 hm2
        refine ⟨st', ?_, ?_⟩
        · simp only [runLoop]
          rw [show drainDir (treeFS t) st sched
              = Except.ok ((⟨mp1, dp1, sn1, sz1⟩ : State), sched1) from hdrain]
          dsimp only
          rw [if_neg hmp, hpick]
          dsimp only
          rw [hproc]
          dsimp only
          exact hrun'
        · rw [hsz']
          congr 1
          rw [Nat.add_assoc, heq2, hsn1]
          congr 1
          exact pendVal_perm _ L _ hperm1
/-- `calc_space_usage` on a finite tree, with any scheduler and enough fuel:
the result is the canonical dedup-aware total, reduced modulo `2 ^ 64`.
`L` assigns each multi-link `(dev, ino)` key its length (on a real filesystem
all hard links to an inode share one size). -/
theorem calc_tree (t : HTree) (L : Nat × Nat → Nat) (opts : Opts)
    (HL : ∀ r ∈ t.files, 1 < r.nlink → r.len = L (r.dev, r.ino))
    (sched : List Nat) (fuel : Nat) (hf : t.weight < fuel) :
    calc_space_usage (treeFS t) [] opts fuel sched
      = some (.ok (canonicalTotal opts.ignore_hardlinks L t % U64)) := by
  have hlkroot : t.lookup [] = some t := by cases t <;> rfl
  have hinv : TInv t (initState []) := by
    refine ⟨?_, ?_, ?_⟩
    · intro mt hmt
      rw [List.mem_singleton.mp hmt]
    · intro mt hmt
      rw [List.mem_singleton.mp hmt]
      exact ⟨t, hlkroot⟩
    · intro p hp
      exact absurd hp (List.not_mem_nil p)
  have hrecs : pendingRecs t (initState []) = t.files := by
    unfold pendingRecs pendingNodes initState
    dsimp only [State.metaPool, State.dirPool]
    rw [List.filterMap_cons_some (f := fun (x : MetaTask) => t.lookup x.path) hlkroot]
    rw [List.filterMap_nil, List.filterMap_nil, List.append_nil, List.flatMap_cons]
    rw [List.flatMap_nil, List.append_nil]
  have hmeas : measureM t (initState []) = t.weight := by
    unfold measureM initState nodeW
    dsimp only [State.metaPool, State.dirPool]
    rw [List.map_nil, List.sum_nil, List.map_cons, List.map_nil, List.sum_cons,
      List.sum_nil, hlkroot]
    rfl
  obtain ⟨st', hrun, hsz⟩ := runLoop_tree t L opts HL fuel (initState []) sched 0
    hinv (by rw [hrecs]; exact fun r hr => hr) (by rw [Nat.zero_mod]; rfl)
    (by rw [hmeas]; exact hf)
  unfold calc_space_usage
  rw [hrun]
  rw [Option.map_some']
  have hmap : Except.map State.size (Except.ok st' : Except IoError State)
      = .ok st'.size := rfl
  rw [hmap, hsz, hrecs]
  rw [show (initState []).seen.toFinset = (∅ : Finset (Nat × Nat)) from rfl]
  rw [Nat.zero_add]
  rfl

/-- Like `processMeta_tree`, but without the inode-consistency hypothesis:
enough for termination (success, invariant, measure decrease). -/
theorem processMeta_tree_term (t : HTree) (opts : Opts)
    {mp rest : List MetaTask} {mt : MetaTask} {dp : List Path}
    {sn : List (Nat × Nat)} {sz : Nat} {nn : Nat}
    (inv : TInv t ⟨mp, dp, sn, sz⟩)
    (hpick : pick mp nn = some (mt, rest)) :
    ∃ st2, processMeta (treeFS t) opts ⟨rest, dp, sn, sz⟩ mt = .ok st2
      ∧ TInv t st2
      ∧ measureM t st2 + 1 = measureM t ⟨mp, dp, sn, sz⟩ := by
  obtain ⟨n, hn⟩ := inv.meta_lookup mt (pick_mem hpick)
  have hfollow := inv.meta_follow mt (pick_mem hpick)
  have hstat : statFor (treeFS t) mt = (mt.path, .ok (metaOf n)) := by
    unfold statFor meta_with_path
    rw [hfollow]
    simp [treeFS, hn]
  have hms : (mp.map (fun x => nodeW t x.path)).sum
      = n.weight + (rest.map (fun x => nodeW t x.path)).sum := by
    rw [pick_map_sum (fun x => nodeW t x.path) hpick]
    congr 1
    unfold nodeW
    rw [hn]
  have invRest : TInv t ⟨rest, dp, sn, sz⟩ := by
    refine ⟨?_, ?_, inv.dir_lookup⟩
    · intro x hx
      exact inv.meta_follow x ((pick_perm hpick).symm.subset (List.mem_cons_of_mem _ hx))
    · intro x hx
      exact inv.meta_lookup x ((pick_perm hpick).symm.subset (List.mem_cons_of_mem _ hx))
  cases n with
  | file l d i nl =>
    by_cases hded : opts.ignore_hardlinks = false ∧ 1 < nl
    · by_cases hx : (d, i) ∈ sn
      · refine ⟨⟨rest, dp, sn, sz⟩, ?_, invRest, ?_⟩
        · unfold processMeta
          rw [hstat]
          dsimp only [metaOf]
          rw [if_pos hded]
          rw [show insertSeen sn (d, i) = (false, sn) from by
            simp [insertSeen, hx]]
        · unfold measureM
          dsimp only
          rw [hms]
          have hw : (HTree.file l d i nl).weight = 1 := rfl
          omega
      · refine ⟨⟨rest, dp, (d, i) :: sn, (sz + l) % U64⟩,
          ?_, ⟨invRest.meta_follow, invRest.meta_lookup, invRest.dir_lookup⟩, ?_⟩
        · unfold processMeta
          rw [hstat]
          dsimp only [metaOf]
          rw [if_pos hded]
          rw [show insertSeen sn (d, i) = (true, (d, i) :: sn) from by
            simp [insertSeen, hx]]
          rfl
        · unfold measureM
          dsimp only
          rw [hms]
          have hw : (HTree.file l d i nl).weight = 1 := rfl
          omega
    · refine ⟨⟨rest, dp, sn, (sz + l) % U64⟩,
        ?_, ⟨invRest.meta_follow, invRest.meta_lookup, invRest.dir_lookup⟩, ?_⟩
      · unfold processMeta
        rw [hstat]
        dsimp only [metaOf]
        rw [if_neg hded]
        rfl
      · unfold measureM
        dsimp only
        rw [hms]
        have hw : (HTree.file l d i nl).weight = 1 := rfl
        omega
  | dir cs =>
    have hcond : ¬ (opts.ignore_hardlinks = false ∧ 1 < 1) := by
      intro h
      exact absurd h.2 (by decide)
    refine ⟨⟨rest, dp ++ [mt.path], sn, sz⟩, ?_, ?_, ?_⟩
    · unfold processMeta
      rw [hstat]
      dsimp only [metaOf, dirMeta]
      rw [if_neg hcond]
      rfl
    · refine ⟨invRest.meta_follow, invRest.meta_lookup, ?_⟩
      intro q hq
      rcases List.mem_append.mp hq with hq | hq
      · exact invRest.dir_lookup q hq
      · rw [List.mem_singleton.mp hq]
        exact ⟨cs, hn⟩
    · unfold measureM
      dsimp only
      rw [hms, List.map_append, List.sum_append]
      have hw : (HTree.dir cs).weight = 2 + weightL cs := rfl
      have hdt : ((([mt.path] : List Path)).map (dirTaskW t)).sum
          = 1 + weightL cs := by
        have hone : dirTaskW t mt.path = 1 + weightL cs := by
          unfold dirTaskW
          rw [hn]
        simp [hone]
      rw [hdt, hw]
      omega

/-- Termination of the driving loop on a tree, from any invariant state with
enough fuel. -/
theorem runLoop_tree_term (t : HTree) (opts : Opts) :
    ∀ (fuel : Nat) (st : State) (sched : List Nat),
      TInv t st → measureM t st < fuel →
      ∃ st', runLoop (treeFS t) opts fuel st sched = some (.ok st') := by
  intro fuel
  induction fuel with
  | zero =>
    intro st sched _ hm
    exact absurd hm (Nat.not_lt_zero _)
  | succ fuel ih =>
    intro st sched inv hm
    obtain ⟨st1, sched1, hdrain, inv1, hnil1, _, _, _, hmeas1⟩ :=
      drainAux_tree t st.dirPool.length st sched (le_refl _) inv
    obtain ⟨mp1, dp1, sn1, sz1⟩ := st1
    simp only [State.dirPool] at hnil1
    by_cases hmp : mp1 = []
    · subst hmp
      subst hnil1
      refine ⟨⟨[], [], sn1, sz1⟩, ?_⟩
      simp only [runLoop]
      rw [show drainDir (treeFS t) st sched
          = Except.ok ((⟨[], [], sn1, sz1⟩ : State), sched1) from hdrain]
      dsimp only
      rw [if_pos rfl]
    · match hpick : pick mp1 (sched1.headD 0) with
      | none => exact absurd (pick_eq_none hpick) hmp
      | some (mt, rest) =>
        obtain ⟨st2, hproc, inv2, hmeas2⟩ :=
          processMeta_tree_term t opts inv1 hpick
        have hm2 : measureM t st2 < fuel := by
          have h1 := hmeas1
          have h2 := hmeas2
          omega
        obtain ⟨st', hrun'⟩ := ih st2 sched1.tail inv2 hm2
        refine ⟨st', ?_⟩
        simp only [runLoop]
        rw [show drainDir (treeFS t) st sched
            = Except.ok ((⟨mp1, dp1, sn1, sz1⟩ : State), sched1) from hdrain]
        dsimp only
        rw [if_neg hmp, hpick]
        dsimp only
        rw [hproc]
        dsimp only
        exact hrun'

/-- The invariant holds at the initial state (one non-following root stat). -/
theorem TInv_init (t : HTree) : TInv t (initState []) := by
  refine ⟨?_, ?_, ?_⟩
  · intro mt hmt
    rw [List.mem_singleton.mp hmt]
  · intro mt hmt
    rw [List.mem_singleton.mp hmt]
    exact ⟨t, by cases t <;> rfl⟩
  · intro p hp
    exact absurd hp (List.not_mem_nil p)

/-- The initial measure is the tree's weight. -/
theorem measureM_init (t : HTree) : measureM t (initState []) = t.weight := by
  unfold measureM initState nodeW
  dsimp only [State.metaPool, State.dirPool]
  rw [List.map_nil, List.sum_nil, List.map_cons, List.map_nil, List.sum_cons,
    List.sum_nil, show t.lookup [] = some t from by cases t <;> rfl]
  rfl

/-! ## Structural lemmas of the loop on an arbitrary filesystem -/

/-- The drain loop always leaves the expansion pool empty when it returns
(the `while` exits only on `None`, i.e. the empty `JoinSet`). -/
theorem drainAux_dirPool_nil (fs : FS) : ∀ (fuel : Nat) (st : State)
    (sched : List Nat) (st1 : State) (sched1 : List Nat),
    st.dirPool.length ≤ fuel →
    drainDirAux fs fuel st sched = .ok (st1, sched1) → st1.dirPool = [] := by
  intro fuel
  induction fuel with
  | zero =>
    intro st sched st1 sched1 hlen h
    have hnil : st.dirPool = [] := List.length_eq_zero.mp (Nat.le_zero.mp hlen)
    simp only [drainDirAux] at h
    cases h
    exact hnil
  | succ fuel ih =>
    intro st sched st1 sched1 hlen h
    match hp : pick st.dirPool (sched.headD 0) with
    | none =>
      simp only [drainDirAux] at h
      rw [hp] at h
      dsimp only at h
      cases h
      exact pick_eq_none hp
    | some (p, rest) =>
      have hlen' : rest.length ≤ fuel := by
        have := pick_length hp
        omega
      simp only [drainDirAux] at h
      rw [hp] at h
      dsimp only at h
      cases hrd : fs.read_dir p with
      | ok children =>
        rw [show expandTask fs p st.metaPool
            = (st.metaPool ++ children.map (fun c => ⟨false, c⟩), .ok ()) from by
          unfold expandTask
          rw [hrd]] at h
        dsimp only at h
        exact ih _ sched.tail st1 sched1 hlen' h
      | error e =>
        rw [show expandTask fs p st.metaPool = (st.metaPool, .error e) from by
          unfold expandTask
          rw [hrd]] at h
        dsimp only at h
        cases hhe : handle_err p st.metaPool e with
        | error e2 =>
          rw [hhe] at h
          dsimp only at h
          exact Except.noConfusion h
        | ok mp2 =>
          rw [hhe] at h
          dsimp only at h
          exact ih _ sched.tail st1 sched1 hlen' h

/-- The drain loop never touches the seen set or the running total. -/
theorem drainAux_seen_size (fs : FS) : ∀ (fuel : Nat) (st : State)
    (sched : List Nat) (st1 : State) (sched1 : List Nat),
    drainDirAux fs fuel st sched = .ok (st1, sched1) →
    st1.seen = st.seen ∧ st1.size = st.size := by
  intro fuel
  induction fuel with
  | zero =>
    intro st sched st1 sched1 h
    simp only [drainDirAux] at h
    cases h
    exact ⟨rfl, rfl⟩
  | succ fuel ih =>
    intro st sched st1 sched1 h
    match hp : pick st.dirPool (sched.headD 0) with
    | none =>
      simp only [drainDirAux] at h
      rw [hp] at h
      dsimp only at h
      cases h
      exact ⟨rfl, rfl⟩
    | some (p, rest) =>
      simp only [drainDirAux] at h
      rw [hp] at h
      dsimp only at h
      cases hrd : fs.read_dir p with
      | ok children =>
        rw [show expandTask fs p st.metaPool
            = (st.metaPool ++ children.map (fun c => ⟨false, c⟩), .ok ()) from by
          unfold expandTask
          rw [hrd]] at h
        dsimp only at h
        obtain ⟨h1, h2⟩ := ih _ sched.tail st1 sched1 h
        exact ⟨h1, h2⟩
      | error e =>
        rw [show expandTask fs p st.metaPool = (st.metaPool, .error e) from by
          unfold expandTask
          rw [hrd]] at h
        dsimp only at h
        cases hhe : handle_err p st.metaPool e with
        | error e2 =>
          rw [hhe] at h
          dsimp only at h
          exact Except.noConfusion h
        | ok mp2 =>
          rw [hhe] at h
          dsimp only at h
          obtain ⟨h1, h2⟩ := ih _ sched.tail st1 sched1 h
          exact ⟨h1, h2⟩

/-- When the driving loop breaks normally, both pools are simultaneously
empty. -/
theorem runLoop_ok_pools (fs : FS) (opts : Opts) : ∀ (fuel : Nat) (st : State)
    (sched : List Nat) (st' : State),
    runLoop fs opts fuel st sched = some (.ok st') →
    st'.metaPool = [] ∧ st'.dirPool = [] := by
  intro fuel
  induction fuel with
  | zero =>
    intro st sched st' h
    simp only [runLoop] at h
    exact Option.noConfusion h
  | succ fuel ih =>
    intro st sched st' h
    simp only [runLoop] at h
    cases hdr : drainDir fs st sched with
    | error e =>
      rw [hdr] at h
      dsimp only at h
      simp at h
    | ok pr =>
      obtain ⟨st1, sched1⟩ := pr
      rw [hdr] at h
      dsimp only at h
      by_cases hmp : st1.metaPool = []
      · rw [if_pos hmp] at h
        have h2 := Except.ok.inj (Option.some.inj h)
        subst h2
        exact ⟨hmp, drainAux_dirPool_nil fs _ st sched st1 sched1 (le_refl _) hdr⟩
      · rw [if_neg hmp] at h
        match hpick : pick st1.metaPool (sched1.headD 0) with
        | none => exact absurd (pick_eq_none hpick) hmp
        | some (mt, rest) =>
          rw [hpick] at h
          dsimp only at h
          cases hpr : processMeta fs opts { st1 with metaPool := rest } mt with
          | error e =>
            rw [hpr] at h
            dsimp only at h
            simp at h
          | ok st2 =>
            rw [hpr] at h
            dsimp only at h
            exact ih st2 sched1.tail st' h

/-- The path component of a metadata task's outcome is the task's path. -/
theorem statFor_fst (fs : FS) (u : MetaTask) : (statFor fs u).1 = u.path := by
  unfold statFor meta_with_path
  by_cases h : u.follow <;> simp [h]

theorem statFor_pair (fs : FS) (u : MetaTask) :
    statFor fs u = (u.path, (statFor fs u).2) := by
  have h := Prod.mk.eta (p := statFor fs u)
  rw [statFor_fst] at h
  exact h.symm

/-- Dispatching on the file type never touches the seen set. -/
theorem applyFileType_seen (opts : Opts) (st : State) (p : Path) (m : Metadata) :
    (applyFileType opts st p m).seen = st.seen := by
  unfold applyFileType
  cases hm : m.ftype
  · rfl
  · rfl
  · by_cases hf : opts.follow_symlinks <;> simp [hf]
  · rfl

/-- Where new seen entries come from: a successful stat with
`link_count > 1` while deduplication is enabled, and nowhere else. -/
theorem processMeta_seen (fs : FS) (opts : Opts) (st : State) (u : MetaTask)
    (st2 : State) (h : processMeta fs opts st u = .ok st2) :
    st2.seen = st.seen
    ∨ (opts.ignore_hardlinks = false ∧ ∃ m, statFor fs u = (u.path, .ok m)
        ∧ 1 < m.nlink ∧ st2.seen = (m.dev, m.ino) :: st.seen) := by
  have hpair := statFor_pair fs u
  unfold processMeta at h
  cases hr : (statFor fs u).2 with
  | error e =>
    rw [hpair, hr] at h
    dsimp only at h
    cases hhe : handle_err u.path st.metaPool e with
    | error e2 =>
      rw [hhe] at h
      dsimp only at h
      exact Except.noConfusion h
    | ok mp =>
      rw [hhe] at h
      dsimp only at h
      obtain rfl := Except.ok.inj h
      exact Or.inl rfl
  | ok m =>
    rw [hpair, hr] at h
    dsimp only at h
    by_cases hded : opts.ignore_hardlinks = false ∧ 1 < m.nlink
    · rw [if_pos hded] at h
      by_cases hx : (m.dev, m.ino) ∈ st.seen
      · rw [show insertSeen st.seen (m.dev, m.ino) = (false, st.seen) from by
          simp [insertSeen, hx]] at h
        dsimp only at h
        obtain rfl := Except.ok.inj h
        exact Or.inl rfl
      · rw [show insertSeen st.seen (m.dev, m.ino)
            = (true, (m.dev, m.ino) :: st.seen) from by
          simp [insertSeen, hx]] at h
        dsimp only at h
        obtain rfl := Except.ok.inj h
        right
        refine ⟨hded.1, m, ?_, hded.2, ?_⟩
        · rw [hpair, hr]
        · rw [applyFileType_seen]
    · rw [if_neg hded] at h
      obtain rfl := Except.ok.inj h
      left
      rw [applyFileType_seen]

/-- Provenance of the seen set over a whole run: with dedup disabled it never
grows, and every entry it gains comes from a successful stat with
`link_count > 1` (of any file type). -/
theorem runLoop_seen (fs : FS) (opts : Opts) : ∀ (fuel : Nat) (st : State)
    (sched : List Nat) (st' : State),
    runLoop fs opts fuel st sched = some (.ok st') →
    (opts.ignore_hardlinks = true → st'.seen = st.seen)
    ∧ ∀ x ∈ st'.seen, x ∈ st.seen
        ∨ (opts.ignore_hardlinks = false ∧ ∃ m u, statFor fs u = (u.path, .ok m)
            ∧ 1 < m.nlink ∧ x = (m.dev, m.ino)) := by
  intro fuel
  induction fuel with
  | zero =>
    intro st sched st' h
    simp only [runLoop] at h
    exact Option.noConfusion h
  | succ fuel ih =>
    intro st sched st' h
    simp only [runLoop] at h
    cases hdr : drainDir fs st sched with
    | error e =>
      rw [hdr] at h
      dsimp only at h
      simp at h
    | ok pr =>
      obtain ⟨st1, sched1⟩ := pr
      have hseen1 : st1.seen = st.seen :=
        (drainAux_seen_size fs _ st sched st1 sched1 hdr).1
      rw [hdr] at h
      dsimp only at h
      by_cases hmp : st1.metaPool = []
      · rw [if_pos hmp] at h
        have h2 := Except.ok.inj (Option.some.inj h)
        subst h2
        refine ⟨fun _ => hseen1, fun x hx => Or.inl (hseen1 ▸ hx)⟩
      · rw [if_neg hmp] at h
        match hpick : pick st1.metaPool (sched1.headD 0) with
        | none => exact absurd (pick_eq_none hpick) hmp
        | some (mt, rest) =>
          rw [hpick] at h
          dsimp only at h
          cases hpr : processMeta fs opts { st1 with metaPool := rest } mt with
          | error e =>
            rw [hpr] at h
            dsimp only at h
            simp at h
          | ok st2 =>
            rw [hpr] at h
            dsimp only at h
            obtain ⟨ih1, ih2⟩ := ih st2 sched1.tail st' h
            rcases processMeta_seen fs opts _ mt st2 hpr with heq |
              ⟨hig, m, hstat, hnl, heq⟩
            · have hseen2 : st2.seen = st.seen := heq.trans hseen1
              refine ⟨fun htrue => (ih1 htrue).trans hseen2, fun x hx => ?_⟩
              rcases ih2 x hx with hx2 | hprov
              · exact Or.inl (hseen2 ▸ hx2)
              · exact Or.inr hprov
            · refine ⟨fun htrue => absurd (htrue.symm.trans hig) (by decide),
                fun x hx => ?_⟩
              rcases ih2 x hx with hx2 | hprov
              · rw [heq] at hx2
                rcases List.mem_cons.mp hx2 with hx3 | hx3
                · exact Or.inr ⟨hig, m, mt, hstat, hnl, hx3⟩
                · exact Or.inl (hseen1 ▸ hx3)
              · exact Or.inr hprov

/-- With no multi-link file anywhere, the canonical total is the plain sum of
the file lengths, for either dedup setting. -/
theorem canonicalTotal_no_multi (ign : Bool) (L : Nat × Nat → Nat) (t : HTree)
    (h : ∀ r ∈ t.files, r.nlink ≤ 1) :
    canonicalTotal ign L t = lensSum t.files := by
  unfold canonicalTotal pendVal
  cases ign with
  | true => rfl
  | false =>
    have h1 : t.files.filter (fun r => r.nlink ≤ 1) = t.files :=
      List.filter_eq_self.mpr (fun r hr => by simpa using h r hr)
    have h2 : t.files.filter (fun r => 1 < r.nlink) = [] := by
      rw [List.filter_eq_nil_iff]
      intro r hr
      have := h r hr
      simp only [decide_eq_true_eq]
      omega
    simp only [if_neg Bool.false_ne_true, onceLens, multiKeys, lensSum, h1, h2,
      List.map_nil, List.toFinset_nil, Finset.empty_sdiff, Finset.sum_empty,
      Nat.add_zero]

/-! ## The claims -/

/-- C1: for every directory tree containing only regular files of known
sizes (no hard links — every stat reports `link_count ≤ 1` — and no
symlinks), `calc_space_usage` returns the sum of those sizes (which fits in
`u64`) under every scheduler, every option record and any sufficient fuel;
in particular, traversing an empty directory returns 0. -/
theorem claim_C1 :
    (∀ (t : HTree) (opts : Opts) (sched : List Nat) (fuel : Nat),
        (∀ r ∈ t.files, r.nlink ≤ 1) → lensSum t.files < U64 → t.weight < fuel →
        calc_space_usage (treeFS t) [] opts fuel sched
          = some (.ok (lensSum t.files)))
    ∧ (∀ (opts : Opts) (sched : List Nat) (fuel : Nat), 2 < fuel →
        calc_space_usage (treeFS (.dir [])) [] opts fuel sched
          = some (.ok 0)) := by
  have key : ∀ (t : HTree) (opts : Opts) (sched : List Nat) (fuel : Nat),
      (∀ r ∈ t.files, r.nlink ≤ 1) → lensSum t.files < U64 → t.weight < fuel →
      calc_space_usage (treeFS t) [] opts fuel sched
        = some (.ok (lensSum t.files)) := by
    intro t opts sched fuel hnl hlt hf
    rw [calc_tree t (fun _ => 0) opts
      (fun r hr h1 => absurd h1 (by have := hnl r hr; omega)) sched fuel hf]
    rw [canonicalTotal_no_multi _ _ _ hnl, Nat.mod_eq_of_lt hlt]
  refine ⟨key, fun opts sched fuel hf => ?_⟩
  have h := key (.dir []) opts sched fuel
    (fun r hr => absurd hr (List.not_mem_nil r)) (by decide) hf
  exact h

/-- Witness for C1 at a concrete two-file tree and the empty directory. -/
theorem claim_C1_witness :
    calc_space_usage (treeFS (.dir [.file 3 0 0 1, .file 4 0 1 1])) []
        ⟨false, false⟩ 6 [] = some (.ok 7)
    ∧ calc_space_usage (treeFS (.dir [])) [] ⟨true, true⟩ 4 [2, 2]
        = some (.ok 0) :=
  ⟨claim_C1.1 (.dir [.file 3 0 0 1, .file 4 0 1 1]) ⟨false, false⟩ [] 6
      (by decide) (by decide) (by decide),
   claim_C1.2 ⟨true, true⟩ [2, 2] 4 (by decide)⟩

/-- C2: on every input tree (hard links carrying consistent metadata, as on
a real filesystem: `L` gives each multi-link inode its length), any two runs
of `calc_space_usage` — different schedulers, different fuels — return the
identical result: the total is deterministic and independent of completion
order. -/
theorem claim_C2 (t : HTree) (L : Nat × Nat → Nat) (opts : Opts)
    (HL : ∀ r ∈ t.files, 1 < r.nlink → r.len = L (r.dev, r.ino))
    (s1 s2 : List Nat) (f1 f2 : Nat) (h1 : t.weight < f1) (h2 : t.weight < f2) :
    calc_space_usage (treeFS t) [] opts f1 s1
      = calc_space_usage (treeFS t) [] opts f2 s2 := by
  rw [calc_tree t L opts HL s1 f1 h1, calc_tree t L opts HL s2 f2 h2]

/-- Witness for C2: a tree with a hard-linked pair, two schedulers. -/
theorem claim_C2_witness :
    calc_space_usage
        (treeFS (.dir [.file 7 0 9 2, .dir [.file 7 0 9 2, .file 5 1 1 1]]))
        [] ⟨false, true⟩ 9 []
      = calc_space_usage
        (treeFS (.dir [.file 7 0 9 2, .dir [.file 7 0 9 2, .file 5 1 1 1]]))
        [] ⟨false, true⟩ 12 [3, 1, 4, 1, 5] :=
  claim_C2 (.dir [.file 7 0 9 2, .dir [.file 7 0 9 2, .file 5 1 1 1]])
    (fun _ => 7) ⟨false, true⟩ (by decide) [] [3, 1, 4, 1, 5] 9 12
    (by decide) (by decide)

/-- C3: the driving loop terminates normally only in states where the
metadata pool and the expansion pool are simultaneously empty (for any
filesystem), and on every finite tree (no symlinks, so symlink-following is
moot) it does reach that state under every scheduler, given fuel beyond the
tree's weight. -/
theorem claim_C3 :
    (∀ (fs : FS) (opts : Opts) (fuel : Nat) (st : State) (sched : List Nat)
        (st' : State),
        runLoop fs opts fuel st sched = some (.ok st') →
        st'.metaPool = [] ∧ st'.dirPool = [])
    ∧ (∀ (t : HTree) (opts : Opts) (sched : List Nat) (fuel : Nat),
        t.weight < fuel →
        ∃ st', runLoop (treeFS t) opts fuel (initState []) sched
          = some (.ok st')) := by
  constructor
  · exact fun fs opts fuel st sched st' h =>
      runLoop_ok_pools fs opts fuel st sched st' h
  · intro t opts sched fuel hf
    exact runLoop_tree_term t opts fuel (initState []) sched (TInv_init t)
      (by rw [measureM_init]; exact hf)

/-- Witness for C3 at a concrete run and a concrete tree. -/
theorem claim_C3_witness :
    ((⟨[], [], [], 0⟩ : State).metaPool = []
      ∧ (⟨[], [], [], 0⟩ : State).dirPool = [])
    ∧ ∃ st', runLoop (treeFS (.dir [.file 1 0 0 1])) ⟨false, false⟩ 4
        (initState []) [] = some (.ok st') :=
  ⟨claim_C3.1 (treeFS (.dir [])) ⟨false, false⟩ 2 (initState []) []
      ⟨[], [], [], 0⟩ rfl,
   claim_C3.2 (.dir [.file 1 0 0 1]) ⟨false, false⟩ [] 4 (by decide)⟩

/-- C4: a pair of hard-linked files sharing one `(dev, ino)` (hence one
size `s` and `link_count = 2`) contributes its size exactly once when
`ignore_hardlinks = false`, and once per link — twice — when
`ignore_hardlinks = true`, under every scheduler. -/
theorem claim_C4 (s d i : Nat) (b : Bool) (sched : List Nat) (fuel : Nat)
    (hs : 2 * s < U64) (hf : 4 < fuel) :
    calc_space_usage (treeFS (.dir [.file s d i 2, .file s d i 2])) []
        ⟨false, b⟩ fuel sched = some (.ok s)
    ∧ calc_space_usage (treeFS (.dir [.file s d i 2, .file s d i 2])) []
        ⟨true, b⟩ fuel sched = some (.ok (2 * s)) := by
  have hw : (HTree.dir [.file s d i 2, .file s d i 2]).weight = 4 := rfl
  have hfiles : (HTree.dir [.file s d i 2, .file s d i 2]).files
      = [⟨s, d, i, 2⟩, ⟨s, d, i, 2⟩] := rfl
  have HL : ∀ r ∈ (HTree.dir [.file s d i 2, .file s d i 2]).files,
      1 < r.nlink → r.len = (fun _ => s) (r.dev, r.ino) := by
    intro r hr _
    rw [hfiles] at hr
    rcases List.mem_cons.mp hr with rfl | hr
    · rfl
    · rcases List.mem_cons.mp hr with rfl | hr
      · rfl
      · exact absurd hr (List.not_mem_nil r)
  have hfuel : (HTree.dir [.file s d i 2, .file s d i 2]).weight < fuel := by
    rw [hw]; exact hf
  constructor
  · rw [calc_tree _ (fun _ => s) ⟨false, b⟩ HL sched fuel hfuel]
    have hct : canonicalTotal false (fun _ => s)
        (HTree.dir [.file s d i 2, .file s d i 2]) = s := by
      unfold canonicalTotal pendVal
      rw [if_neg Bool.false_ne_true, hfiles]
      have h1 : ([⟨s, d, i, 2⟩, ⟨s, d, i, 2⟩] : List FileRec).filter
          (fun r => r.nlink ≤ 1) = [] := rfl
      have h2 : ([⟨s, d, i, 2⟩, ⟨s, d, i, 2⟩] : List FileRec).filter
          (fun r => 1 < r.nlink) = [⟨s, d, i, 2⟩, ⟨s, d, i, 2⟩] := rfl
      unfold onceLens multiKeys
      rw [h1, h2]
      simp only [List.map_nil, List.sum_nil, List.map_cons,
        List.toFinset_cons, List.toFinset_nil, Finset.insert_idem,
        Finset.sdiff_empty, Nat.zero_add]
      rw [Finset.sum_insert (Finset.not_mem_empty _), Finset.sum_empty]
      omega
    rw [hct, Nat.mod_eq_of_lt (by omega)]
  · rw [calc_tree _ (fun _ => s) ⟨true, b⟩ HL sched fuel hfuel]
    have hct : canonicalTotal true (fun _ => s)
        (HTree.dir [.file s d i 2, .file s d i 2]) = 2 * s := by
      unfold canonicalTotal pendVal
      rw [if_pos rfl, hfiles]
      unfold lensSum
      simp only [List.map_cons, List.map_nil, List.sum_cons, List.sum_nil]
      omega
    rw [hct, Nat.mod_eq_of_lt hs]

/-- Witness for C4 at size 7, key (0, 9). -/
theorem claim_C4_witness :
    calc_space_usage (treeFS (.dir [.file 7 0 9 2, .file 7 0 9 2])) []
        ⟨false, false⟩ 5 [] = some (.ok 7)
    ∧ calc_space_usage (treeFS (.dir [.file 7 0 9 2, .file 7 0 9 2])) []
        ⟨true, false⟩ 5 [] = some (.ok (2 * 7)) :=
  claim_C4 7 0 9 false [] 5 (by decide) (by decide)

/-- C10: the running total is a `u64` accumulated by wrapping addition, so
on a tree (here without hard links, where the claim's "true total" is the
plain sum) whose true total reaches `2 ^ 64`, the returned value is the sum
modulo `2 ^ 64`, which is not the true total. -/
theorem claim_C10 (t : HTree) (opts : Opts) (sched : List Nat) (fuel : Nat)
    (hnl : ∀ r ∈ t.files, r.nlink ≤ 1) (hbig : U64 ≤ lensSum t.files)
    (hf : t.weight < fuel) :
    calc_space_usage (treeFS t) [] opts fuel sched
      = some (.ok (lensSum t.files % U64))
    ∧ lensSum t.files % U64 ≠ lensSum t.files := by
  constructor
  · rw [calc_tree t (fun _ => 0) opts
      (fun r hr h1 => absurd h1 (by have := hnl r hr; omega)) sched fuel hf]
    rw [canonicalTotal_no_multi _ _ _ hnl]
  · have hpos : 0 < U64 := by decide
    have hmod : lensSum t.files % U64 < U64 := Nat.mod_lt _ hpos
    omega

/-- Witness for C10: two `2 ^ 63`-byte files; the reported total wraps
to 0. -/
theorem claim_C10_witness :
    calc_space_usage
        (treeFS (.dir [.file (2 ^ 63) 0 0 1, .file (2 ^ 63) 1 1 1])) []
        ⟨false, false⟩ 5 []
      = some (.ok (lensSum
          (HTree.dir [.file (2 ^ 63) 0 0 1, .file (2 ^ 63) 1 1 1]).files % U64))
    ∧ lensSum (HTree.dir [.file (2 ^ 63) 0 0 1,
        .file (2 ^ 63) 1 1 1]).files % U64
      ≠ lensSum (HTree.dir [.file (2 ^ 63) 0 0 1,
        .file (2 ^ 63) 1 1 1]).files :=
  claim_C10 (.dir [.file (2 ^ 63) 0 0 1, .file (2 ^ 63) 1 1 1])
    ⟨false, false⟩ [] 5 (by decide) (by decide) (by decide)

/-- C5 counterexample: the first step of an iteration is not a non-blocking
poll.  With one in-flight expansion task and no task completed, the
spec-modelled non-blocking drain (`drainDirPolled`, all completion flags
false) returns immediately with the pool unchanged, but the code's drain
(`poll_fn` over `poll_join_next`, awaited — i.e. `join_next` in a loop)
waits for and reaps the in-flight task: the pool comes back empty. -/
theorem claim_C5_counterexample :
    drainDirPolled fsListingEmpty ⟨[], [[0]], [], 0⟩ (fun _ => false)
      = .ok ⟨[], [[0]], [], 0⟩
    ∧ drainDir fsListingEmpty ⟨[], [[0]], [], 0⟩ []
      = .ok (⟨[], [], [], 0⟩, ([] : List Nat))
    ∧ ([[0]] : List Path) ≠ [] :=
  ⟨rfl, rfl, by decide⟩

/-- C5 amended: the first step of every iteration drains the expansion pool
to empty, suspending as needed until every in-flight expansion task has
completed (successes are no-ops, failures go to `handle_err`); it never
returns while expansion tasks remain. -/
theorem claim_C5 (fs : FS) (st : State) (sched : List Nat) (st1 : State)
    (sched1 : List Nat) (h : drainDir fs st sched = .ok (st1, sched1)) :
    st1.dirPool = [] :=
  drainAux_dirPool_nil fs st.dirPool.length st sched st1 sched1 (le_refl _) h

/-- Witness for the amended C5. -/
theorem claim_C5_witness : (⟨[], [], [], 0⟩ : State).dirPool = [] :=
  claim_C5 fsListingEmpty ⟨[], [[0]], [], 0⟩ [] ⟨[], [], [], 0⟩ [] rfl

/-- C6 counterexample: an `OutOfMemory` failure is not resubmitted as the
identical operation.  A failed link-following stat (task `⟨true, [0]⟩`) is
retried as a non-following `meta_with_path` stat (`⟨false, [0]⟩`), and a
failed directory expansion (path `[1]` in the expansion pool) is retried as
a metadata-fetch task, not as an expansion (the expansion pool comes back
empty, the metadata pool gains `⟨false, [1]⟩`). -/
theorem claim_C6_counterexample :
    processMeta fsFollowOom ⟨false, true⟩ ⟨[], [], [], 0⟩ ⟨true, [0]⟩
      = .ok ⟨[⟨false, [0]⟩], [], [], 0⟩
    ∧ (⟨false, [0]⟩ : MetaTask) ≠ ⟨true, [0]⟩
    ∧ drainDir fsExpandOom ⟨[], [[1]], [], 0⟩ []
      = .ok (⟨[⟨false, [1]⟩], [], [], 0⟩, ([] : List Nat)) :=
  ⟨rfl, by decide, rfl⟩

/-- C6 amended: every failure classified `OutOfMemory` (the code's
rendering of ResourceExhausted) is retried by spawning a fresh non-following
`meta_with_path` stat of the same path — regardless of whether the failed
operation was a link-following stat or a directory expansion — and
`handle_err` does not abort the traversal on that error. -/
theorem claim_C6 (p : Path) (pool : List MetaTask) (e : IoError)
    (h : e.kind = .outOfMemory) :
    handle_err p pool e = .ok (pool ++ [⟨false, p⟩]) := by
  unfold handle_err
  rw [h]

/-- Witness for the amended C6. -/
theorem claim_C6_witness :
    handle_err [2] [⟨true, [0]⟩] ⟨.outOfMemory, 5⟩
      = .ok ([⟨true, [0]⟩] ++ [⟨false, [2]⟩]) :=
  claim_C6 [2] [⟨true, [0]⟩] ⟨.outOfMemory, 5⟩ rfl

/-- C7 counterexample: the fatal error returned to the caller does not carry
the offending path.  Two runs whose only difference is the root path — `[0]`
versus `[1]` — on a filesystem whose every stat fails with OS error 7 return
the *identical* error value, so the result cannot encode which path
failed. -/
theorem claim_C7_counterexample :
    calc_space_usage (failFS ⟨.otherKind, 7⟩) [0] ⟨false, false⟩ 3 []
      = some (.error ⟨.otherKind, 7⟩)
    ∧ calc_space_usage (failFS ⟨.otherKind, 7⟩) [1] ⟨false, false⟩ 3 []
      = some (.error ⟨.otherKind, 7⟩)
    ∧ ([0] : Path) ≠ [1] :=
  ⟨rfl, rfl, by decide⟩

/-- C7 amended: on the first fatal I/O error (any kind other than `NotFound`
or `OutOfMemory`), `calc_space_usage` stops and returns the underlying OS
error — without the offending path, which `handle_err` discards — and no
partial total is returned. -/
theorem claim_C7 (e : IoError) (hk : e.kind = .otherKind) (p : Path)
    (opts : Opts) (sched : List Nat) (fuel : Nat) (hf : 1 ≤ fuel) :
    calc_space_usage (failFS e) p opts fuel sched = some (.error e) := by
  obtain ⟨k, rfl⟩ : ∃ k, fuel = k + 1 := ⟨fuel - 1, by omega⟩
  unfold calc_space_usage
  have hrun : runLoop (failFS e) opts (k + 1) (initState p) sched
      = some (.error e) := by
    simp only [runLoop]
    rw [show drainDir (failFS e) (initState p) sched
        = .ok (initState p, sched) from rfl]
    dsimp only
    rw [if_neg (show ¬ (initState p).metaPool = [] from
      fun hc => List.noConfusion hc)]
    rw [show pick (initState p).metaPool (sched.headD 0)
        = some (⟨false, p⟩, []) from by
      simp [pick, initState, Nat.mod_one]]
    dsimp only
    rw [show processMeta (failFS e) opts
          { initState p with metaPool := [] } ⟨false, p⟩ = .error e from by
      unfold processMeta statFor meta_with_path failFS
      simp only [Bool.false_eq_true, if_false]
      unfold handle_err
      rw [hk]]
  rw [hrun]
  rfl

/-- Witness for the amended C7. -/
theorem claim_C7_witness :
    calc_space_usage (failFS ⟨.otherKind, 3⟩) [4] ⟨true, true⟩ 2 [9]
      = some (.error ⟨.otherKind, 3⟩) :=
  claim_C7 ⟨.otherKind, 3⟩ rfl [4] ⟨true, true⟩ [9] 2 (by decide)

/-- C8 counterexample: the seen-inode set is not populated only for regular
files.  Traversing a filesystem whose root is an (empty) directory with
`link_count = 2` at `(dev, ino) = (5, 9)` — dedup enabled — ends with
`(5, 9)` in the set, although the entry that produced it is a directory,
not a regular file. -/
theorem claim_C8_counterexample :
    runLoop fsDirHardlink ⟨false, false⟩ 3 (initState []) []
      = some (.ok ⟨[], [], [(5, 9)], 0⟩)
    ∧ fsDirHardlink.symlink_metadata [] = .ok ⟨.dir, 0, 5, 9, 2⟩
    ∧ FileType.dir ≠ FileType.file :=
  ⟨rfl, rfl, by decide⟩

/-- C8 amended: throughout a traversal the seen set is populated only for
stat results with `link_count > 1` — of any file type, directories included
— and only when hard-link deduplication is enabled; with
`ignore_hardlinks = true` the set never grows, and entries with
`link_count ≤ 1` never touch it. -/
theorem claim_C8 (fs : FS) (opts : Opts) (fuel : Nat) (st : State)
    (sched : List Nat) (st' : State)
    (h : runLoop fs opts fuel st sched = some (.ok st')) :
    (opts.ignore_hardlinks = true → st'.seen = st.seen)
    ∧ ∀ x ∈ st'.seen, x ∈ st.seen
        ∨ (opts.ignore_hardlinks = false
            ∧ ∃ m u, statFor fs u = (u.path, .ok m)
              ∧ 1 < m.nlink ∧ x = (m.dev, m.ino)) :=
  runLoop_seen fs opts fuel st sched st' h

/-- Witness for the amended C8 on the directory-with-hardlink run. -/
theorem claim_C8_witness :
    (((⟨false, false⟩ : Opts).ignore_hardlinks = true →
        (⟨[], [], [(5, 9)], 0⟩ : State).seen = (initState []).seen)
    ∧ ∀ x ∈ (⟨[], [], [(5, 9)], 0⟩ : State).seen, x ∈ (initState []).seen
        ∨ ((⟨false, false⟩ : Opts).ignore_hardlinks = false
            ∧ ∃ m u, statFor fsDirHardlink u = (u.path, .ok m)
              ∧ 1 < m.nlink ∧ x = (m.dev, m.ino))) :=
  claim_C8 fsDirHardlink ⟨false, false⟩ 3 (initState []) []
    ⟨[], [], [(5, 9)], 0⟩ rfl

/-- C9: when the root path is a symlink and `follow_symlinks` is false, the
result is 0: the initial stat is the non-following `meta_with_path`
(`fs::symlink_metadata`), and the symlink is dropped without contributing
bytes. -/
theorem claim_C9 (fs : FS) (p : Path) (opts : Opts) (m : Metadata)
    (sched : List Nat) (fuel : Nat) (hfollow : opts.follow_symlinks = false)
    (hm : fs.symlink_metadata p = .ok m) (hsym : m.ftype = .symlink)
    (hfuel : 2 ≤ fuel) :
    calc_space_usage fs p opts fuel sched = some (.ok 0) := by
  obtain ⟨k, rfl⟩ : ∃ k, fuel = k + 2 := ⟨fuel - 2, by omega⟩
  unfold calc_space_usage
  have hstat : statFor fs ⟨false, p⟩ = (p, .ok m) := by
    unfold statFor meta_with_path
    simp only [Bool.false_eq_true, if_false]
    rw [hm]
  have happ : ∀ stx : State, applyFileType opts stx p m = stx := by
    intro stx
    unfold applyFileType
    rw [hsym]
    dsimp only
    simp [hfollow]
  have hpm : ∃ sn2, processMeta fs opts ⟨[], [], [], 0⟩ ⟨false, p⟩
      = .ok ⟨[], [], sn2, 0⟩ := by
    unfold processMeta
    rw [hstat]
    dsimp only
    by_cases hded : opts.ignore_hardlinks = false ∧ 1 < m.nlink
    · rw [if_pos hded]
      rw [show insertSeen [] (m.dev, m.ino) = (true, [(m.dev, m.ino)]) from by
        simp [insertSeen]]
      dsimp only
      exact ⟨[(m.dev, m.ino)], by rw [happ]⟩
    · rw [if_neg hded]
      exact ⟨[], by rw [happ]⟩
  obtain ⟨sn2, hpm⟩ := hpm
  have hrun : runLoop fs opts (k + 2) (initState p) sched
      = some (.ok ⟨[], [], sn2, 0⟩) := by
    simp only [runLoop]
    rw [show drainDir fs (initState p) sched = .ok (initState p, sched) from rfl]
    dsimp only
    rw [if_neg (show ¬ (initState p).metaPool = [] from
      fun hc => List.noConfusion hc)]
    rw [show pick (initState p).metaPool (sched.headD 0)
        = some (⟨false, p⟩, []) from by
      simp [pick, initState, Nat.mod_one]]
    dsimp only
    rw [show processMeta fs opts { initState p with metaPool := [] } ⟨false, p⟩
        = .ok ⟨[], [], sn2, 0⟩ from hpm]
    dsimp only
    rw [show drainDir fs (⟨[], [], sn2, 0⟩ : State) sched.tail
        = .ok ((⟨[], [], sn2, 0⟩ : State), sched.tail) from rfl]
    dsimp only
    rw [if_pos rfl]
  rw [hrun]
  rfl

/-- Witness for C9: a root symlink to a 100-byte file contributes 0. -/
theorem claim_C9_witness :
    calc_space_usage fsSymRoot [5] ⟨false, false⟩ 5 []
      = some (.ok 0) :=
  claim_C9 fsSymRoot [5] ⟨false, false⟩ ⟨.symlink, 100, 2, 2, 1⟩ [] 5
    rfl rfl rfl (by decide)

end Rdu
